import Mathlib

/-!
Shallow embedding of the periodic trajectory spline engine of
graphic_editor/application.py (a closed-loop race-line editor), and
verification of the specified properties of its operations.

Numeric conventions used throughout the embedding:

* machine reals are embedded as exact rationals;
* np.hypot and the exponent 1.5 are carried through an abstract square
  root `sq : ℚ → ℚ`; theorems assume of it only what they need (such as
  nonnegativity of its values), and where the source compares two
  np.hypot values directly the embedding compares the squared distances
  instead, which makes exactly the same comparisons because the square
  root is strictly monotone on nonnegative arguments;
* scipy.interpolate.CubicSpline is external library code (not part of
  this repository); a periodic fit of a numpy column stack of (x, y, v)
  with axis=0 solves one banded linear system per column against the
  shared knot vector, so the external fit is modelled as an abstract
  per-column fit function `fit : knots → values → sample point → value`
  applied once per channel;
* scipy.interpolate.interp1d (kind="linear", fill_value="extrapolate")
  is embedded concretely as exact piecewise-linear interpolation;
* Python exceptions are modelled with Except Unit: a velocity source
  that can fail is a function ℚ → Except Unit ℚ, and a numpy vectorized
  evaluation of it over an array either yields every value or raises.
-/

namespace RaceLine

/-- A 2-D point with exact rational coordinates, an (x, y) pair of the
editor. -/
abbrev Pt : Type := ℚ × ℚ

/-- Maximum of two rationals, written with an explicit comparison so
that the kernel can evaluate it on concrete inputs. -/
def maxQ (a b : ℚ) : ℚ := if a ≤ b then b else a

/-- Minimum of two rationals, written with an explicit comparison so
that the kernel can evaluate it on concrete inputs. -/
def minQ (a b : ℚ) : ℚ := if a ≤ b then a else b

/-- Absolute value of a rational, written with an explicit comparison
so that the kernel can evaluate it on concrete inputs. -/
def absQ (a : ℚ) : ℚ := if a ≤ 0 then -a else a

/-- np.clip t 0 1, as used for the projection parameter in
insert_nearest. -/
def clip01 (t : ℚ) : ℚ := maxQ 0 (minQ t 1)

/-- The edge-scan body of insert_nearest: the perpendicular projection
of p onto the segment from a to b, clamped to the segment parameter
range [0,1]; a degenerate segment (dx = dy = 0) projects to its start
point. -/
def segProj (a b p : Pt) : Pt :=
  let dx := b.1 - a.1
  let dy := b.2 - a.2
  if dx = 0 ∧ dy = 0 then a
  else
    let t := clip01 (((p.1 - a.1) * dx + (p.2 - a.2) * dy) / (dx * dx + dy * dy))
    (a.1 + t * dx, a.2 + t * dy)

/-- Squared Euclidean distance.  insert_nearest compares np.hypot
values of point differences; the square root is strictly monotone on
nonnegative arguments, so the scan over squared distances below makes
exactly the same comparisons and selects the same edge as the source. -/
def dist2 (p q : Pt) : ℚ :=
  (p.1 - q.1) * (p.1 - q.1) + (p.2 - q.2) * (p.2 - q.2)

/-- Squared distances from p to its clamped projection onto each edge
(pts i, pts (i+1)) for i = 0 .. n-2: exactly the edges that the loop
`for i in range(len(pts) - 1)` of insert_nearest scans.  The wrap edge
from the last point back to the first is not scanned by the source. -/
def edgeDists (pts : List Pt) (p : Pt) : List ℚ :=
  (List.range (pts.length - 1)).map fun i =>
    dist2 p (segProj (pts.getD i (0, 0)) (pts.getD (i + 1) (0, 0)) p)

/-- The running-minimum scan of insert_nearest: min_dist starts at
infinity (modelled by none) and insert_idx at 0; when the distance d of
edge i strictly improves on the running minimum, insert_idx becomes
i + 1.  The argument order is: remaining distances, running minimum,
current best index, index of the edge about to be scanned. -/
def scanMin : List ℚ → Option ℚ → ℕ → ℕ → ℕ
  | [], _, best, _ => best
  | d :: ds, none, _, i => scanMin ds (some d) (i + 1) (i + 1)
  | d :: ds, some m, best, i =>
    if d < m then scanMin ds (some d) (i + 1) (i + 1)
    else scanMin ds (some m) best (i + 1)

/-- Python list.insert n x: insert x before position n (n past the end
appends at the end, as in Python). -/
def insertAt (n : ℕ) (x : Pt) (l : List Pt) : List Pt :=
  l.take n ++ x :: l.drop n

/-- The insertion index insert_idx computed by the scan loop of
insert_nearest. -/
def insert_nearest_idx (control_pts : List Pt) (new_pt : Pt) : ℕ :=
  scanMin (edgeDists control_pts new_pt) none 0 0

/-- insert_nearest from application.py: scan the edges between
consecutive stored control points for the one whose clamped projection
is nearest to new_pt (strict improvement only, so the first minimal
edge wins ties), then return a copy of the list with new_pt inserted
immediately after the start of that edge. -/
def insert_nearest (control_pts : List Pt) (new_pt : Pt) : List Pt :=
  insertAt (insert_nearest_idx control_pts new_pt) new_pt control_pts

/-- Specification-side insertion following claim C1's words: the same
clamped-projection distances, the same first-minimal selection and the
same insert-after-edge-start rule, but ranging over every edge of the
closed loop including the wrap edge from the last point back to the
first.  Used only to compare the claim against the source function. -/
def insert_nearest_claim (control_pts : List Pt) (new_pt : Pt) : List Pt :=
  let n := control_pts.length
  let ds := (List.range n).map fun i =>
    dist2 new_pt
      (segProj (control_pts.getD i (0, 0)) (control_pts.getD ((i + 1) % n) (0, 0))
        new_pt)
  insertAt (scanMin ds none 0 0) new_pt control_pts

/-- Minimum of a list of rationals (0 for the empty list); used to state
what the scan of insert_nearest selects. -/
def listMin : List ℚ → ℚ
  | [] => 0
  | [d] => d
  | d :: e :: es => min d (listMin (e :: es))

/-- A heap of Python list objects: references are indices into the
heap.  Used to state that insert_nearest does not mutate its argument. -/
abbrev Store : Type := List (List Pt)

/-- insert_nearest as executed over the Python heap: read the argument
list, compute the insertion index, allocate control_pts.copy() as a
fresh object, insert new_pt into that copy in place, and return the
updated heap together with the fresh reference. -/
def insert_nearestProg (σ : Store) (arg : ℕ) (p : Pt) : Store × ℕ :=
  let cps := σ.getD arg []
  let idx := insert_nearest_idx cps p
  let σ1 := σ ++ [cps]
  let r := σ.length
  (σ1.set r (insertAt idx p (σ1.getD r [])), r)

/-- np.hypot dx dy carried through the abstract square root. -/
def npHypot (sq : ℚ → ℚ) (dx dy : ℚ) : ℚ := sq (dx * dx + dy * dy)

/-- np.diff: consecutive differences. -/
def adjDiff : List ℚ → List ℚ
  | [] => []
  | [_] => []
  | a :: b :: l => (b - a) :: adjDiff (b :: l)

/-- np.cumsum with an explicit running accumulator. -/
def cumsumFrom (acc : ℚ) : List ℚ → List ℚ
  | [] => []
  | d :: ds => (acc + d) :: cumsumFrom (acc + d) ds

/-- np.cumsum. -/
def cumsum (l : List ℚ) : List ℚ := cumsumFrom 0 l

/-- Overwrite the last entry of a list with its first entry: the
v[-1] = v[0] periodicity writes of the source. -/
def setLastToHead : List ℚ → List ℚ
  | [] => []
  | h :: t => (h :: t).dropLast ++ [h]

/-- np.allclose on two points with numpy's default tolerances
rtol = 1e-5 and atol = 1e-8. -/
def allclose2 (a b : Pt) : Bool :=
  decide (absQ (a.1 - b.1) ≤ 1 / 100000000 + absQ b.1 / 100000) &&
  decide (absQ (a.2 - b.2) ≤ 1 / 100000000 + absQ b.2 / 100000)

/-- The 1e-9 degeneracy threshold of spline_sample_closed. -/
def epsQ : ℚ := 1 / 1000000000

/-- The chord cumulative length table of a point sequence: the
t_path = np.concatenate(([0], np.cumsum(np.hypot(diff x, diff y))))
computation of spline_sample_closed. -/
def chordCumsum (sq : ℚ → ℚ) (pts : List Pt) : List ℚ :=
  0 :: cumsum (List.zipWith (npHypot sq) (adjDiff (pts.map Prod.fst))
    (adjDiff (pts.map Prod.snd)))

/-- The closure step of spline_sample_closed: append the first point
unless the first and last points are already np.allclose. -/
def ptsForSpline (pts : List Pt) : List Pt :=
  if allclose2 (pts.headD (0, 0)) (pts.getLastD (0, 0)) then pts
  else pts ++ [pts.headD (0, 0)]

/-- The degenerate output of spline_sample_closed (single control
point, or all points effectively coincident): constant x/y at the given
point, constant velocity cs_vel(0.0) with a raised failure caught and
replaced by 0 and the value clamped at 0, arc length all zeros, and
every array closed by appending its own first sample. -/
def degenSample (p : Pt) (num_points : ℕ) (cs_vel : ℚ → Except Unit ℚ) :
    List ℚ × List ℚ × List ℚ × List ℚ :=
  let v_val : ℚ := match cs_vel 0 with | .ok v => v | .error _ => 0
  let xs := List.replicate num_points p.1
  let ys := List.replicate num_points p.2
  let vs := List.replicate num_points (maxQ 0 v_val)
  let Ss : List ℚ := List.replicate num_points 0
  (xs ++ xs.take 1, ys ++ ys.take 1, vs ++ vs.take 1, Ss ++ Ss.take 1)

/-- The sampling stage of spline_sample_closed after the velocity
source has been evaluated successfully: clamp the velocities at 0 and
force the last onto the first, fit the external periodic spline per
channel over the normalized chord parameter t_norm, sample it at
num_points evenly spaced parameters covering [0,1) (endpoint
excluded), clamp sampled velocities at 0, close every array by
appending its own first sample, and recompute the output arc length
from the sampled geometry. -/
def assembleSample (sq : ℚ → ℚ) (fit : List ℚ → List ℚ → ℚ → ℚ)
    (pfs : List Pt) (t_norm : List ℚ) (num_points : ℕ) (v_vals : List ℚ) :
    List ℚ × List ℚ × List ℚ × List ℚ :=
  let v_final := setLastToHead (v_vals.map fun v => maxQ 0 v)
  let fx := fit t_norm (pfs.map Prod.fst)
  let fy := fit t_norm (pfs.map Prod.snd)
  let fv := fit t_norm v_final
  let ts := (List.range num_points).map fun i : ℕ => (i : ℚ) / (num_points : ℚ)
  let xs_p := ts.map fx
  let ys_p := ts.map fy
  let vs_p := (ts.map fv).map fun v => maxQ 0 v
  let xs := xs_p ++ xs_p.take 1
  let ys := ys_p ++ ys_p.take 1
  let vs := vs_p ++ vs_p.take 1
  let S : List ℚ :=
    0 :: cumsum (List.zipWith (npHypot sq) (adjDiff xs) (adjDiff ys))
  (xs, ys, vs, S)

/-- The non-degenerate path of spline_sample_closed: normalize the
chord parameter, scale it by s_max, evaluate the velocity source at
the scaled parameters — unguarded in the source, so one vectorized
evaluation that either yields every value or raises — and run the
sampling stage on success.  A raised failure propagates out. -/
def mainSample (sq : ℚ → ℚ) (fit : List ℚ → List ℚ → ℚ → ℚ)
    (pfs : List Pt) (num_points : ℕ) (cs_vel : ℚ → Except Unit ℚ)
    (s_max : ℚ) : Except Unit (List ℚ × List ℚ × List ℚ × List ℚ) :=
  let t_path := chordCumsum sq pfs
  let total := t_path.getLastD 0
  let t_norm := t_path.map fun t => t / total
  let s_ctrl := t_norm.map fun t => t * s_max
  (s_ctrl.mapM cs_vel).map (assembleSample sq fit pfs t_norm num_points)

/-- spline_sample_closed from application.py.  Branches: no control
point at all gives four empty arrays; exactly one control point, or a
total chord length below 1e-9 after closure, gives the degenerate
constant output (velocity-source failures caught there); otherwise the
loop is closed if needed and the non-degenerate sampling path runs. -/
def spline_sample_closed (sq : ℚ → ℚ)
    (fit : List ℚ → List ℚ → ℚ → ℚ)
    (control_pts : List Pt) (num_points : ℕ)
    (cs_vel : ℚ → Except Unit ℚ) (s_max : ℚ) :
    Except Unit (List ℚ × List ℚ × List ℚ × List ℚ) :=
  match control_pts with
  | [] => .ok ([], [], [], [])
  | [p] => .ok (degenSample p num_points cs_vel)
  | p0 :: p1 :: rest =>
    let pfs := ptsForSpline (p0 :: p1 :: rest)
    if (chordCumsum sq pfs).getLastD 0 < epsQ then
      .ok (degenSample p0 num_points cs_vel)
    else mainSample sq fit pfs num_points cs_vel s_max

/-- The velocity drag of DraggableVelocityScatter.mouseMoveEvent: clamp
the dragged value at 0, write it at dragIndex, and, when periodic with
more than one entry, mirror a dragged first entry onto the last and a
dragged last entry onto the first. -/
def drag (is_periodic : Bool) (v : List ℚ) (dragIndex : ℕ) (yval : ℚ) : List ℚ :=
  let v1 := v.set dragIndex (maxQ 0 yval)
  if is_periodic = true ∧ 1 < v1.length then
    if dragIndex = 0 then v1.set (v1.length - 1) (v1.headD 0)
    else if dragIndex = v1.length - 1 then v1.set 0 (v1.getLastD 0)
    else v1
  else v1

/-- Sorted insertion, a helper for the sort performed by np.unique. -/
def insSorted (x : ℚ) : List ℚ → List ℚ
  | [] => [x]
  | y :: ys => if x ≤ y then x :: y :: ys else y :: insSorted x ys

/-- Insertion sort of a list of rationals. -/
def sortQ : List ℚ → List ℚ
  | [] => []
  | x :: xs => insSorted x (sortQ xs)

/-- Collapse adjacent duplicates of a list (on a sorted list this keeps
one representative per value), a helper for np.unique. -/
def dedupAdj : List ℚ → List ℚ
  | [] => []
  | [x] => [x]
  | x :: y :: ys => if x = y then dedupAdj (y :: ys) else x :: dedupAdj (y :: ys)

/-- np.unique: the sorted distinct values of a list. -/
def uniqueSorted (l : List ℚ) : List ℚ := dedupAdj (sortQ l)

/-- Index of the first occurrence of a value in a list (the length when
absent).  Equality of rationals is phrased through the two order
comparisons, which is equivalent on a linear order and keeps the
definition cheaply evaluable. -/
def firstIdxOf (x : ℚ) : List ℚ → ℕ
  | [] => 0
  | y :: t => if y ≤ x ∧ x ≤ y then 0 else firstIdxOf x t + 1

/-- The velocity values picked at the first occurrence of each distinct
arc length: np.unique with return_index=True followed by
v[unique_idx]. -/
def uniqueV (cur_s cur_v : List ℚ) : List ℚ :=
  (uniqueSorted cur_s).map fun x => cur_v.getD (firstIdxOf x cur_s) 0

/-- Segment walk of scipy.interpolate.interp1d with kind="linear" and
fill_value="extrapolate": queries left of the first knot extrapolate
the first segment, queries right of the last knot extrapolate the last
segment. -/
def lininterpSeg (x0 y0 : ℚ) : List (ℚ × ℚ) → ℚ → ℚ
  | [], _ => y0
  | [(x1, y1)], x => y0 + (y1 - y0) / (x1 - x0) * (x - x0)
  | (x1, y1) :: q :: rest, x =>
    if x ≤ x1 then y0 + (y1 - y0) / (x1 - x0) * (x - x0)
    else lininterpSeg x1 y1 (q :: rest) x

/-- Piecewise-linear interpolation through knots xs with values ys. -/
def lininterp (xs ys : List ℚ) (x : ℚ) : ℚ :=
  match xs.zip ys with
  | [] => 0
  | (x0, y0) :: rest => lininterpSeg x0 y0 rest x

/-- Python float modulo a % b (floored remainder). -/
def fmod (a b : ℚ) : ℚ := a - b * (⌊a / b⌋ : ℤ)

/-- The raw reparametrized velocity values computed by
MainWindow.update_spline before the final clamp and periodicity write:
cur_s and cur_v are the old velocity control arrays, new_s is the new
arc-length grid, s_max is the freshly recomputed total loop length of
the new control points, and cs0 is the initially loaded velocity spline
used by the fallback branches.  Mirrors the source branch for branch,
including the unit-gap substitutes, the 1e-6 guards and the constant
fallbacks.  None of the branch conditions involves the query point, so
the per-branch array constructions of the source are expressed as one
pointwise function mapped over the new grid. -/
def reparamFun (cur_s cur_v : List ℚ) (s_max : ℚ) (cs0 : ℚ → ℚ) (s : ℚ) : ℚ :=
  if 1 < cur_s.length ∧ 0 < cur_s.getLastD 0 then
    let us := uniqueSorted cur_s
    let uv := uniqueV cur_s cur_v
    if 1 < us.length then
      let pre := if 2 < us.length then
          us.headD 0 - (cur_s.getLastD 0 - us.getD (us.length - 2) 0)
        else us.headD 0 - 1
      let app := if 1 < us.length then us.getLastD 0 + (us.getD 1 0 - us.headD 0)
        else us.getLastD 0 + 1
      let dom := pre :: us ++ [app]
      let vals := uv.headD 0 :: uv ++ [uv.headD 0]
      if 1 / 1000000 < cur_s.getLastD 0 then
        lininterp dom vals
          (s / (if 1 / 1000000 < s_max then s_max else 1) *
            (if 0 < cur_s.length then cur_s.getLastD 0 else 1))
      else cur_v.headD (cs0 0)
    else if us.length = 1 then uv.headD 0
    else cs0 (fmod s (if 1 / 1000000 < s_max then s_max else 1))
  else if cur_s.length = 1 then cur_v.headD 0
  else cs0 (fmod s (if 1 / 1000000 < s_max then s_max else 1))

/-- The raw reparametrized velocity values of update_spline: the
branch-selected value computed at every entry of the new grid. -/
def reparamRaw (new_s cur_s cur_v : List ℚ) (s_max : ℚ) (cs0 : ℚ → ℚ) : List ℚ :=
  new_s.map (reparamFun cur_s cur_v s_max cs0)

/-- The final clamp and periodicity enforcement of update_spline:
new_v = np.maximum(0, new_v), then if len(new_s) > 1 the last entry is
overwritten with the first. -/
def finalizeVel (new_s : List ℚ) (raw : List ℚ) : List ℚ :=
  let clamped := raw.map fun q => maxQ 0 q
  if 1 < new_s.length then setLastToHead clamped else clamped

/-- reparametrize_to: the full velocity-profile reparametrization of
MainWindow.update_spline, the raw interpolation stage followed by the
clamp and the periodicity write. -/
def reparametrize_to (new_s cur_s cur_v : List ℚ) (s_max : ℚ) (cs0 : ℚ → ℚ) :
    List ℚ :=
  finalizeVel new_s (reparamRaw new_s cur_s cur_v s_max cs0)

/-- Specification-side reparametrization following claim C5's words:
over the deduplicated old samples u, prepend u0 minus the gap between
the last two samples (a unit gap when fewer than 3 distinct samples
exist), append the last sample plus the first gap, put the original
first velocity value at both added endpoints, and query the
piecewise-linear interpolant at (new_s / new_total_length) *
old_total_length, the old total length being the last (largest) old
sample.  Used only to compare the claim against the source function. -/
def reparamSpec (new_s cur_s cur_v : List ℚ) (new_total : ℚ) : List ℚ :=
  let u := uniqueSorted cur_s
  let uv := uniqueV cur_s cur_v
  let old_total := u.getLastD 0
  let pre := if 2 < u.length then
      u.headD 0 - (u.getLastD 0 - u.getD (u.length - 2) 0)
    else u.headD 0 - 1
  let app := u.getLastD 0 + (u.getD 1 0 - u.headD 0)
  let dom := pre :: u ++ [app]
  let vals := cur_v.headD 0 :: uv ++ [cur_v.headD 0]
  new_s.map fun s => lininterp dom vals (s / new_total * old_total)

/-- The two-point wrap padding of save_csv:
x_ext = np.concatenate((x[-2:], x, x[:2])). -/
def extWrap2 (l : List ℚ) : List ℚ := l.drop (l.length - 2) ++ l ++ l.take 2

/-- np.gradient with unit spacing and edge_order=2: central differences
in the interior, second-order one-sided differences at the two ends. -/
def npGradient (l : List ℚ) : List ℚ :=
  (List.range l.length).map fun i =>
    if i = 0 then (-3 * l.getD 0 0 + 4 * l.getD 1 0 - l.getD 2 0) / 2
    else if i = l.length - 1 then
      (3 * l.getD i 0 - 4 * l.getD (i - 1) 0 + l.getD (i - 2) 0) / 2
    else (l.getD (i + 1) 0 - l.getD (i - 1) 0) / 2

/-- The raw curvature denominators (dx_dt^2 + dy_dt^2)^1.5 of save_csv
over the wrap-padded sampled arrays; m^1.5 is the square root of m^3,
carried through the abstract square root sq. -/
def curvDenomRaw (sq : ℚ → ℚ) (x y : List ℚ) : List ℚ :=
  List.zipWith (fun a b => sq ((a * a + b * b) * (a * a + b * b) * (a * a + b * b)))
    (npGradient (extWrap2 x)) (npGradient (extWrap2 y))

/-- The guarded curvature denominators of save_csv:
denom[denom == 0] = np.finfo(float).eps, the machine constant being
modelled as an abstract positive rational eps. -/
def curvDenom (sq : ℚ → ℚ) (eps : ℚ) (x y : List ℚ) : List ℚ :=
  (curvDenomRaw sq x y).map fun q => if q = 0 then eps else q

/-- The exported curvature column of save_csv: kappa_full =
(dx_dt * d2y - d2x * dy_dt) / denom on the wrap-padded arrays, then the
two padding samples are discarded at each end. -/
def curvKappa (sq : ℚ → ℚ) (eps : ℚ) (x y : List ℚ) : List ℚ :=
  let dx := npGradient (extWrap2 x)
  let dy := npGradient (extWrap2 y)
  let d2x := npGradient dx
  let d2y := npGradient dy
  let num := List.zipWith (fun a b => a - b)
    (List.zipWith (fun a b => a * b) dx d2y)
    (List.zipWith (fun a b => a * b) d2x dy)
  let kf := List.zipWith (fun a b => a / b) num (curvDenom sq eps x y)
  ((kf.drop 2).dropLast).dropLast

/-! Helper lemmas about the scan of insert_nearest. -/

theorem listMin_le : ∀ (ds : List ℚ) (x : ℚ), x ∈ ds → listMin ds ≤ x
  | [d], x, hx => by
    rcases List.mem_singleton.mp hx with rfl
    exact le_refl _
  | d :: e :: es, x, hx => by
    rcases List.mem_cons.mp hx with rfl | hx'
    · exact min_le_left _ _
    · exact le_trans (min_le_right _ _) (listMin_le (e :: es) x hx')

theorem listMin_mem : ∀ (ds : List ℚ), ds ≠ [] → listMin ds ∈ ds
  | [d], _ => by simp [listMin]
  | d :: e :: es, _ => by
    rcases le_total d (listMin (e :: es)) with h | h
    · simp only [listMin]
      rw [min_eq_left h]
      exact List.mem_cons_self _ _
    · simp only [listMin]
      rw [min_eq_right h]
      exact List.mem_cons_of_mem _ (listMin_mem (e :: es) (by simp))

theorem le_listMin : ∀ (ds : List ℚ), ds ≠ [] → ∀ c : ℚ, (∀ x ∈ ds, c ≤ x) →
    c ≤ listMin ds
  | [d], _, c, h => h d (by simp)
  | d :: e :: es, _, c, h => by
    simp only [listMin]
    exact le_min (h d (by simp))
      (le_listMin (e :: es) (by simp) c fun x hx => h x (List.mem_cons_of_mem _ hx))

theorem listMin_cons_of_lt {d : ℚ} {ds : List ℚ} (hne : ds ≠ [])
    (h : listMin ds < d) : listMin (d :: ds) = listMin ds := by
  cases ds with
  | nil => exact absurd rfl hne
  | cons e es =>
    simp only [listMin]
    exact min_eq_right (le_of_lt h)

theorem scanMin_ge : ∀ (ds : List ℚ) (m : ℚ) (best i : ℕ),
    (∀ x ∈ ds, m ≤ x) → scanMin ds (some m) best i = best
  | [], _, _, _, _ => rfl
  | d :: ds, m, best, i, h => by
    have hd : m ≤ d := h d (by simp)
    simp only [scanMin, if_neg (not_lt.mpr hd)]
    exact scanMin_ge ds m best (i + 1) fun x hx => h x (List.mem_cons_of_mem _ hx)

theorem scanMin_lt : ∀ (ds : List ℚ) (m : ℚ) (best i : ℕ), (∃ x ∈ ds, x < m) →
    scanMin ds (some m) best i = i + 1 + ds.findIdx fun x => decide (x = listMin ds)
  | [], _, _, _, h => absurd h (by simp)
  | d :: ds, m, best, i, h => by
    by_cases hdm : d < m
    · simp only [scanMin, if_pos hdm]
      by_cases hex : ∃ x ∈ ds, x < d
      · obtain ⟨x, hx, hxd⟩ := hex
        have hne : ds ≠ [] := by rintro rfl; exact absurd hx (by simp)
        have hmin_lt : listMin ds < d := lt_of_le_of_lt (listMin_le ds x hx) hxd
        rw [scanMin_lt ds d (i + 1) (i + 1) ⟨x, hx, hxd⟩,
          listMin_cons_of_lt hne hmin_lt, List.findIdx_cons]
        have hd0 : (decide (d = listMin ds)) = false := by
          simp [ne_of_gt hmin_lt]
        rw [hd0]
        simp only [cond_false]
        omega
      · push_neg at hex
        rw [scanMin_ge ds d (i + 1) (i + 1) hex]
        have hmin : listMin (d :: ds) = d := by
          cases ds with
          | nil => rfl
          | cons e es =>
            simp only [listMin]
            exact min_eq_left (le_listMin (e :: es) (by simp) d hex)
        rw [hmin, List.findIdx_cons]
        simp
    · simp only [scanMin, if_neg hdm]
      obtain ⟨x, hx, hxm⟩ := h
      rcases List.mem_cons.mp hx with rfl | hx'
      · exact absurd hxm hdm
      have hne : ds ≠ [] := by rintro rfl; exact absurd hx' (by simp)
      have hmd : m ≤ d := not_lt.mp hdm
      have hmin_lt : listMin ds < d :=
        lt_of_le_of_lt (listMin_le ds x hx') (lt_of_lt_of_le hxm hmd)
      rw [scanMin_lt ds m best (i + 1) ⟨x, hx', hxm⟩,
        listMin_cons_of_lt hne hmin_lt, List.findIdx_cons]
      have hd0 : (decide (d = listMin ds)) = false := by
        simp [ne_of_gt hmin_lt]
      rw [hd0]
      simp only [cond_false]
      omega

theorem scanMin_none_char (ds : List ℚ) (h : ds ≠ []) :
    scanMin ds none 0 0 = 1 + ds.findIdx fun x => decide (x = listMin ds) := by
  cases ds with
  | nil => exact absurd rfl h
  | cons d ds' =>
    simp only [scanMin]
    by_cases hex : ∃ x ∈ ds', x < d
    · obtain ⟨x, hx, hxd⟩ := hex
      have hne : ds' ≠ [] := by rintro rfl; exact absurd hx (by simp)
      have hmin_lt : listMin ds' < d := lt_of_le_of_lt (listMin_le ds' x hx) hxd
      rw [scanMin_lt ds' d 1 1 ⟨x, hx, hxd⟩, listMin_cons_of_lt hne hmin_lt,
        List.findIdx_cons]
      have hd0 : (decide (d = listMin ds')) = false := by
        simp [ne_of_gt hmin_lt]
      rw [hd0]
      simp only [cond_false]
      omega
    · push_neg at hex
      rw [scanMin_ge ds' d 1 1 hex]
      have hmin : listMin (d :: ds') = d := by
        cases ds' with
        | nil => rfl
        | cons e es =>
          simp only [listMin]
          exact min_eq_left (le_listMin (e :: es) (by simp) d hex)
      rw [hmin, List.findIdx_cons]
      simp

theorem scanMin_le : ∀ (ds : List ℚ) (mo : Option ℚ) (best i : ℕ), best ≤ i →
    scanMin ds mo best i ≤ i + ds.length
  | [], mo, best, i, h => by cases mo <;> simpa [scanMin] using h
  | d :: ds, none, best, i, h => by
    simp only [scanMin]
    have h2 := scanMin_le ds (some d) (i + 1) (i + 1) (le_refl _)
    simp only [List.length_cons]
    omega
  | d :: ds, some m, best, i, h => by
    simp only [scanMin]
    by_cases hdm : d < m
    · rw [if_pos hdm]
      have h2 := scanMin_le ds (some d) (i + 1) (i + 1) (le_refl _)
      simp only [List.length_cons]
      omega
    · rw [if_neg hdm]
      have h2 := scanMin_le ds (some m) best (i + 1) (le_trans h (Nat.le_succ i))
      simp only [List.length_cons]
      omega

theorem findIdxEq_facts : ∀ (ds : List ℚ) (c : ℚ), c ∈ ds →
    (ds.findIdx fun x => decide (x = c)) < ds.length ∧
    ds.getD (ds.findIdx fun x => decide (x = c)) 0 = c ∧
    ∀ j < ds.findIdx fun x => decide (x = c), ds.getD j 0 ≠ c
  | d :: ds, c, hc => by
    by_cases hdc : d = c
    · subst hdc
      simp [List.findIdx_cons]
    · have hc' : c ∈ ds := by
        rcases List.mem_cons.mp hc with rfl | hm
        · exact absurd rfl hdc
        · exact hm
      obtain ⟨h1, h2, h3⟩ := findIdxEq_facts ds c hc'
      rw [List.findIdx_cons]
      have hd : (decide (d = c)) = false := by simp [hdc]
      rw [hd]
      simp only [cond_false]
      refine ⟨by simpa using Nat.succ_lt_succ h1, by simpa using h2, ?_⟩
      intro j hj
      cases j with
      | zero => simpa using hdc
      | succ j' =>
        simp only [List.getD_cons_succ]
        exact h3 j' (Nat.lt_of_succ_lt_succ hj)

theorem edgeDists_length (l : List Pt) (p : Pt) :
    (edgeDists l p).length = l.length - 1 := by
  simp [edgeDists]

theorem insert_nearest_idx_le (l : List Pt) (p : Pt) :
    insert_nearest_idx l p ≤ l.length := by
  have h1 := scanMin_le (edgeDists l p) none 0 0 (le_refl 0)
  have h2 := edgeDists_length l p
  unfold insert_nearest_idx
  omega

theorem insertAt_length (n : ℕ) (x : Pt) (l : List Pt) (h : n ≤ l.length) :
    (insertAt n x l).length = l.length + 1 := by
  simp only [insertAt, List.length_append, List.length_take, List.length_cons,
    List.length_drop]
  omega

theorem eraseIdx_insertAt : ∀ (k : ℕ) (x : Pt) (l : List Pt), k ≤ l.length →
    (insertAt k x l).eraseIdx k = l
  | 0, x, l, _ => by simp [insertAt]
  | k + 1, x, [], h => by simp at h
  | k + 1, x, a :: l, h => by
    have hs : insertAt (k + 1) x (a :: l) = a :: insertAt k x l := by
      simp [insertAt]
    have hk : k ≤ l.length := by
      simp only [List.length_cons] at h
      omega
    rw [hs, List.eraseIdx_cons_succ, eraseIdx_insertAt k x l hk]

/-! Claim C1: the edge selection of insert_nearest. -/

/-- Claim C1, counterexample: insert_nearest scans only the edges
between consecutive stored points.  On the square loop
(0,0), (10,0), (10,10), (0,10) with new point (-1,5), the nearest
closed-loop edge is the wrap edge from (0,10) back to (0,0), so the
selection rule the claim describes (wrap edge included) appends the
new point after the loop's last point, while the source inserts it
after the first edge's start; the two results differ. -/
theorem C1_counterexample :
    insert_nearest [((0 : ℚ), (0 : ℚ)), (10, 0), (10, 10), (0, 10)] (-1, 5) =
      [(0, 0), (-1, 5), (10, 0), (10, 10), (0, 10)] ∧
    insert_nearest_claim [((0 : ℚ), (0 : ℚ)), (10, 0), (10, 10), (0, 10)] (-1, 5) =
      [(0, 0), (10, 0), (10, 10), (0, 10), (-1, 5)] ∧
    insert_nearest [((0 : ℚ), (0 : ℚ)), (10, 0), (10, 10), (0, 10)] (-1, 5) ≠
      insert_nearest_claim [((0 : ℚ), (0 : ℚ)), (10, 0), (10, 10), (0, 10)] (-1, 5) :=
  ⟨by with_unfolding_all decide, by with_unfolding_all decide,
    by with_unfolding_all decide⟩

/-- Claim C1 (amended): for every control-point sequence and every new
point, insert_nearest computes the clamped perpendicular projection of
the new point onto every edge between consecutive stored points (the
wrap edge from the last point back to the first is not scanned),
selects the edge with the strictly smallest point-to-projection
distance with the first-seen edge winning exact ties, and inserts the
new point immediately after the start of that edge; with fewer than
two points the insertion index is 0.  The result has length one
greater than the input and, being take k ++ new ++ drop k, preserves
the relative order of all other points. -/
theorem C1_insert_nearest (l : List Pt) (p : Pt) :
    insert_nearest l p =
      l.take (insert_nearest_idx l p) ++ p :: l.drop (insert_nearest_idx l p) ∧
    (insert_nearest l p).length = l.length + 1 ∧
    (2 ≤ l.length →
      ∃ i, insert_nearest_idx l p = i + 1 ∧
        i < (edgeDists l p).length ∧
        (∀ j < (edgeDists l p).length,
          (edgeDists l p).getD i 0 ≤ (edgeDists l p).getD j 0) ∧
        (∀ j < i, (edgeDists l p).getD i 0 < (edgeDists l p).getD j 0)) ∧
    (l.length ≤ 1 → insert_nearest_idx l p = 0) := by
  have hlen_ed := edgeDists_length l p
  refine ⟨rfl, insertAt_length _ _ _ (insert_nearest_idx_le l p), ?_, ?_⟩
  · intro h2
    have hpos : 0 < (edgeDists l p).length := by omega
    have hne : edgeDists l p ≠ [] := List.length_pos.mp hpos
    have hchar := scanMin_none_char (edgeDists l p) hne
    have hmem := listMin_mem (edgeDists l p) hne
    obtain ⟨hjlt, hjget, hjpre⟩ := findIdxEq_facts (edgeDists l p) _ hmem
    refine ⟨(edgeDists l p).findIdx fun x => decide (x = listMin (edgeDists l p)),
      ?_, hjlt, ?_, ?_⟩
    · unfold insert_nearest_idx
      omega
    · intro j hj
      rw [hjget]
      exact listMin_le _ _ (by
        rw [List.getD_eq_getElem _ _ hj]
        exact List.getElem_mem _)
    · intro j hj
      have hjlen : j < (edgeDists l p).length := lt_trans hj hjlt
      have hne' := hjpre j hj
      rw [hjget]
      refine lt_of_le_of_ne (listMin_le _ _ ?_) (Ne.symm hne')
      rw [List.getD_eq_getElem _ _ hjlen]
      exact List.getElem_mem _
  · intro h1
    have hz : (edgeDists l p).length = 0 := by omega
    have he : edgeDists l p = [] := List.length_eq_zero.mp hz
    unfold insert_nearest_idx
    rw [he]
    rfl

/-- Claim C1 (amended), witness: the characterization evaluated on the
square loop with new point (-1,5). -/
theorem C1_witness :
    2 ≤ ([((0 : ℚ), (0 : ℚ)), (10, 0), (10, 10), (0, 10)] : List Pt).length ∧
    (∃ i, insert_nearest_idx [((0 : ℚ), (0 : ℚ)), (10, 0), (10, 10), (0, 10)] (-1, 5) =
        i + 1 ∧
      i < (edgeDists [((0 : ℚ), (0 : ℚ)), (10, 0), (10, 10), (0, 10)] (-1, 5)).length ∧
      (∀ j < (edgeDists [((0 : ℚ), (0 : ℚ)), (10, 0), (10, 10), (0, 10)] (-1, 5)).length,
        (edgeDists [((0 : ℚ), (0 : ℚ)), (10, 0), (10, 10), (0, 10)] (-1, 5)).getD i 0 ≤
          (edgeDists [((0 : ℚ), (0 : ℚ)), (10, 0), (10, 10), (0, 10)] (-1, 5)).getD j 0) ∧
      (∀ j < i,
        (edgeDists [((0 : ℚ), (0 : ℚ)), (10, 0), (10, 10), (0, 10)] (-1, 5)).getD i 0 <
          (edgeDists [((0 : ℚ), (0 : ℚ)), (10, 0), (10, 10), (0, 10)] (-1, 5)).getD j 0)) :=
  ⟨by decide,
    (C1_insert_nearest [((0 : ℚ), (0 : ℚ)), (10, 0), (10, 10), (0, 10)] (-1, 5)).2.2.1
      (by decide)⟩

/-! Claim C7: insert followed by remove restores the input. -/

/-- Claim C7: for every control-point sequence and every new point,
applying insert_nearest and then removing the element at the index
where it was inserted yields the original sequence, element for
element. -/
theorem C7_insert_then_remove (l : List Pt) (p : Pt) :
    (insert_nearest l p).eraseIdx (insert_nearest_idx l p) = l :=
  eraseIdx_insertAt _ _ _ (insert_nearest_idx_le l p)

/-! Claim C10: insert_nearest does not mutate its argument. -/

/-- Claim C10: executed over the Python heap, insert_nearest leaves the
list object passed as its argument unchanged, returns a freshly
allocated reference (the next free heap cell, distinct from the
argument reference) and that fresh object holds exactly the insertion
result. -/
theorem C10_no_mutation (σ : Store) (arg : ℕ) (p : Pt) (h : arg < σ.length) :
    (insert_nearestProg σ arg p).1.getD arg [] = σ.getD arg [] ∧
    (insert_nearestProg σ arg p).2 = σ.length ∧
    (insert_nearestProg σ arg p).1.getD (insert_nearestProg σ arg p).2 [] =
      insert_nearest (σ.getD arg []) p := by
  have hne : arg ≠ σ.length := Nat.ne_of_lt h
  have happ : (σ ++ [σ.getD arg []]).getD σ.length [] = σ.getD arg [] := by
    rw [List.getD_append_right _ _ _ _ (le_refl _)]
    simp
  have hlen : σ.length < (σ ++ [σ.getD arg []]).length := by simp
  refine ⟨?_, rfl, ?_⟩
  · simp only [insert_nearestProg]
    rw [List.getD_eq_getElem?_getD, List.getElem?_set_ne (Ne.symm hne),
      ← List.getD_eq_getElem?_getD]
    exact List.getD_append _ _ _ _ h
  · simp only [insert_nearestProg]
    rw [List.getD_eq_getElem?_getD, List.getElem?_set_self hlen]
    simp only [Option.getD_some]
    rw [happ]
    rfl

/-! Helper lemmas for the sampling theorems. -/

theorem maxQ_eq (a b : ℚ) : maxQ a b = max a b := by
  by_cases h : a ≤ b
  · rw [maxQ, if_pos h, max_eq_right h]
  · rw [maxQ, if_neg h, max_eq_left (le_of_not_le h)]

theorem maxQ_nonneg (v : ℚ) : 0 ≤ maxQ 0 v := by
  rw [maxQ_eq]
  exact le_max_left 0 v

theorem closeList_headD (l : List ℚ) (b : ℚ) :
    (l ++ l.take 1).headD b = l.headD b := by
  cases l <;> simp

theorem closeList_getLastD (l : List ℚ) (b : ℚ) (h : l ≠ []) :
    (l ++ l.take 1).getLastD b = l.headD b := by
  cases l with
  | nil => exact absurd rfl h
  | cons x t =>
    show ((x :: t) ++ [x]).getLastD b = x
    exact List.getLastD_concat _ _ _

theorem closeList_length (l : List ℚ) (h : l ≠ []) :
    (l ++ l.take 1).length = l.length + 1 := by
  cases l with
  | nil => exact absurd rfl h
  | cons x t => simp

theorem closeList_mem {l : List ℚ} {q : ℚ} (h : q ∈ l ++ l.take 1) : q ∈ l := by
  rcases List.mem_append.mp h with h' | h'
  · exact h'
  · exact List.mem_of_mem_take h'

theorem headD_of_const {l : List ℚ} {a : ℚ} (h : ∀ q ∈ l, q = a) (hne : l ≠ []) :
    l.headD 0 = a := by
  cases l with
  | nil => exact absurd rfl hne
  | cons x t => exact h x (by simp)

theorem getLastD_of_const {l : List ℚ} {a : ℚ} (h : ∀ q ∈ l, q = a) (hne : l ≠ []) :
    l.getLastD 0 = a := by
  cases l with
  | nil => exact absurd rfl hne
  | cons x t =>
    rw [List.getLastD_cons]
    exact h _ (List.getLastD_mem_cons t x)

theorem chain'_le_of_const : ∀ (l : List ℚ) (a : ℚ), (∀ q ∈ l, q = a) →
    List.Chain' (· ≤ ·) l
  | [], _, _ => by simp
  | [x], _, _ => by simp
  | x :: y :: t, a, h => by
    rw [List.chain'_cons]
    refine ⟨?_, chain'_le_of_const (y :: t) a fun q hq => h q (List.mem_cons_of_mem _ hq)⟩
    rw [h x (by simp), h y (by simp)]

theorem chain'_cumsumFrom : ∀ (l : List ℚ) (acc : ℚ), (∀ d ∈ l, 0 ≤ d) →
    List.Chain' (· ≤ ·) (acc :: cumsumFrom acc l)
  | [], acc, _ => by simp [cumsumFrom]
  | d :: ds, acc, h => by
    simp only [cumsumFrom]
    rw [List.chain'_cons]
    exact ⟨le_add_of_nonneg_right (h d (by simp)),
      chain'_cumsumFrom ds (acc + d) fun z hz => h z (List.mem_cons_of_mem _ hz)⟩

theorem zipWith_npHypot_nonneg {sq : ℚ → ℚ} (hsq : ∀ q, 0 ≤ sq q) :
    ∀ (a b : List ℚ), ∀ z ∈ List.zipWith (npHypot sq) a b, 0 ≤ z
  | [], _, z, hz => by simp at hz
  | _ :: _, [], z, hz => by simp at hz
  | x :: xs, y :: ys, z, hz => by
    simp only [List.zipWith_cons_cons] at hz
    rcases List.mem_cons.mp hz with rfl | hz'
    · exact hsq _
    · exact zipWith_npHypot_nonneg hsq xs ys z hz'

theorem adjDiff_length : ∀ l : List ℚ, (adjDiff l).length = l.length - 1
  | [] => rfl
  | [_] => rfl
  | a :: b :: l => by
    have := adjDiff_length (b :: l)
    simp only [adjDiff, List.length_cons] at this ⊢
    omega

theorem cumsumFrom_length : ∀ (l : List ℚ) (acc : ℚ),
    (cumsumFrom acc l).length = l.length
  | [], _ => rfl
  | d :: ds, acc => by
    simp only [cumsumFrom, List.length_cons]
    rw [cumsumFrom_length ds]

theorem mem_map_maxQ {l : List ℚ} {q : ℚ} (h : q ∈ l.map fun v => maxQ 0 v) :
    0 ≤ q := by
  obtain ⟨a, _, rfl⟩ := List.mem_map.mp h
  exact maxQ_nonneg a

theorem exceptMap_ok {α β : Type} {f : α → β} {e : Except Unit α} {r : β}
    (h : e.map f = .ok r) : ∃ a, e = .ok a ∧ r = f a := by
  cases e with
  | error u => simp [Except.map] at h
  | ok a =>
    refine ⟨a, rfl, ?_⟩
    simpa [Except.map] using h.symm

/-- All conclusions of the output contract for the degenerate constant
sample. -/
theorem degenSample_spec (p : Pt) (n : ℕ) (cs : ℚ → Except Unit ℚ)
    (x y v S : List ℚ) (h : degenSample p n cs = (x, y, v, S)) :
    (∀ q ∈ x, q = p.1) ∧ (∀ q ∈ y, q = p.2) ∧
    (∀ q ∈ v, q = maxQ 0 (match cs 0 with | .ok w => w | .error _ => 0)) ∧
    (∀ q ∈ S, q = 0) ∧
    (1 ≤ n → x.length = n + 1 ∧ y.length = n + 1 ∧ v.length = n + 1 ∧
      S.length = n + 1 ∧ x ≠ [] ∧ y ≠ [] ∧ v ≠ [] ∧ S ≠ []) := by
  simp only [degenSample, Prod.mk.injEq] at h
  obtain ⟨rfl, rfl, rfl, rfl⟩ := h
  refine ⟨fun q hq => List.eq_of_mem_replicate (closeList_mem hq),
    fun q hq => List.eq_of_mem_replicate (closeList_mem hq),
    fun q hq => List.eq_of_mem_replicate (closeList_mem hq),
    fun q hq => List.eq_of_mem_replicate (closeList_mem hq), ?_⟩
  intro hn
  have hrep : ∀ a : ℚ, (List.replicate n a) ≠ [] := by
    intro a
    simp [← List.length_pos]
    omega
  have hlen : ∀ a : ℚ,
      (List.replicate n a ++ (List.replicate n a).take 1).length = n + 1 := by
    intro a
    rw [closeList_length _ (hrep a)]
    simp
  have hne : ∀ a : ℚ,
      (List.replicate n a ++ (List.replicate n a).take 1) ≠ [] := by
    intro a
    rw [← List.length_pos, hlen a]
    omega
  exact ⟨hlen _, hlen _, hlen _, hlen _, hne _, hne _, hne _, hne _⟩

/-- The output contract holds for any closed-by-appending-the-head
tuple whose three period lists have length n and whose velocity period
list is nonnegative. -/
theorem closed_tuple_spec (sq : ℚ → ℚ) (xs_p ys_p vs_p : List ℚ) (n : ℕ)
    (hn : 1 ≤ n) (hx : xs_p.length = n) (hy : ys_p.length = n)
    (hv : vs_p.length = n) (hvpos : ∀ q ∈ vs_p, 0 ≤ q) (hsq : ∀ q, 0 ≤ sq q) :
    ((xs_p ++ xs_p.take 1).length = n + 1 ∧
      (ys_p ++ ys_p.take 1).length = n + 1 ∧
      (vs_p ++ vs_p.take 1).length = n + 1 ∧
      (0 :: cumsum (List.zipWith (npHypot sq) (adjDiff (xs_p ++ xs_p.take 1))
        (adjDiff (ys_p ++ ys_p.take 1)))).length = n + 1) ∧
    ((xs_p ++ xs_p.take 1).headD 0 = (xs_p ++ xs_p.take 1).getLastD 0 ∧
      (ys_p ++ ys_p.take 1).headD 0 = (ys_p ++ ys_p.take 1).getLastD 0 ∧
      (vs_p ++ vs_p.take 1).headD 0 = (vs_p ++ vs_p.take 1).getLastD 0) ∧
    (0 :: cumsum (List.zipWith (npHypot sq) (adjDiff (xs_p ++ xs_p.take 1))
      (adjDiff (ys_p ++ ys_p.take 1)))).headD 0 = 0 ∧
    List.Chain' (· ≤ ·) (0 :: cumsum (List.zipWith (npHypot sq)
      (adjDiff (xs_p ++ xs_p.take 1)) (adjDiff (ys_p ++ ys_p.take 1)))) ∧
    (∀ q ∈ vs_p ++ vs_p.take 1, 0 ≤ q) := by
  have hne_of_len : ∀ (l : List ℚ), l.length = n → l ≠ [] := by
    intro l hl
    rw [← List.length_pos, hl]
    omega
  have hxlen := closeList_length _ (hne_of_len _ hx)
  have hylen := closeList_length _ (hne_of_len _ hy)
  have hvlen := closeList_length _ (hne_of_len _ hv)
  rw [hx] at hxlen
  rw [hy] at hylen
  rw [hv] at hvlen
  refine ⟨⟨hxlen, hylen, hvlen, ?_⟩, ?_, rfl, ?_, ?_⟩
  · simp only [List.length_cons, cumsum, cumsumFrom_length, List.length_zipWith,
      adjDiff_length, hxlen, hylen]
    omega
  · exact ⟨((closeList_headD _ _).trans
        (closeList_getLastD _ _ (hne_of_len _ hx)).symm),
      ((closeList_headD _ _).trans
        (closeList_getLastD _ _ (hne_of_len _ hy)).symm),
      ((closeList_headD _ _).trans
        (closeList_getLastD _ _ (hne_of_len _ hv)).symm)⟩
  · exact chain'_cumsumFrom _ 0 fun d hd => zipWith_npHypot_nonneg hsq _ _ d hd
  · intro q hq
    exact hvpos q (closeList_mem hq)

/-- All conclusions of the output contract for the non-degenerate
sampling stage. -/
theorem assembleSample_spec (sq : ℚ → ℚ) (fit : List ℚ → List ℚ → ℚ → ℚ)
    (pfs : List Pt) (t_norm : List ℚ) (n : ℕ) (v_vals : List ℚ)
    (x y v S : List ℚ) (hn : 1 ≤ n) (hsq : ∀ q, 0 ≤ sq q)
    (h : assembleSample sq fit pfs t_norm n v_vals = (x, y, v, S)) :
    (x.length = n + 1 ∧ y.length = n + 1 ∧ v.length = n + 1 ∧ S.length = n + 1) ∧
    (x.headD 0 = x.getLastD 0 ∧ y.headD 0 = y.getLastD 0 ∧
      v.headD 0 = v.getLastD 0) ∧
    S.headD 0 = 0 ∧ List.Chain' (· ≤ ·) S ∧ (∀ q ∈ v, 0 ≤ q) := by
  simp only [assembleSample, Prod.mk.injEq] at h
  obtain ⟨rfl, rfl, rfl, rfl⟩ := h
  exact closed_tuple_spec sq _ _ _ n hn (by simp) (by simp) (by simp)
    (fun q hq => mem_map_maxQ hq) hsq

/-- The output contract for the degenerate constant sample. -/
theorem degen_contract (p : Pt) (n : ℕ) (cs : ℚ → Except Unit ℚ)
    (x y v S : List ℚ) (hn : 1 ≤ n) (h : degenSample p n cs = (x, y, v, S)) :
    (x.length = n + 1 ∧ y.length = n + 1 ∧ v.length = n + 1 ∧ S.length = n + 1) ∧
    (x.headD 0 = x.getLastD 0 ∧ y.headD 0 = y.getLastD 0 ∧
      v.headD 0 = v.getLastD 0) ∧
    S.headD 0 = 0 ∧ List.Chain' (· ≤ ·) S ∧ ∀ q ∈ v, 0 ≤ q := by
  obtain ⟨hx, hy, hv, hS, hlen⟩ := degenSample_spec p n cs x y v S h
  obtain ⟨hxl, hyl, hvl, hSl, hxne, hyne, hvne, hSne⟩ := hlen hn
  refine ⟨⟨hxl, hyl, hvl, hSl⟩, ⟨?_, ?_, ?_⟩, ?_, ?_, ?_⟩
  · rw [headD_of_const hx hxne, getLastD_of_const hx hxne]
  · rw [headD_of_const hy hyne, getLastD_of_const hy hyne]
  · rw [headD_of_const hv hvne, getLastD_of_const hv hvne]
  · rw [headD_of_const hS hSne]
  · exact chain'_le_of_const _ _ hS
  · intro q hq
    rw [hv q hq]
    exact maxQ_nonneg _

/-! Claim C3: the output contract of spline_sample_closed. -/

/-- Claim C3, counterexample: with num_points = 0 on a two-point path
the source returns arrays of lengths 0, 0, 0 and 1, not four arrays of
equal length num_points + 1 = 1 (the sampled arrays are empty while
the arc-length array still carries its leading 0). -/
theorem C3_counterexample :
    spline_sample_closed (fun q => maxQ q 0) (fun _ _ _ => 0)
      [((0 : ℚ), (0 : ℚ)), (1, 0)] 0 (fun _ => .ok 0) 1 =
      .ok ([], [], [], [0]) := by
  with_unfolding_all rfl

/-- Claim C3 (amended): for every nonempty control-point sequence and
every num_points of at least 1, a successful run of
spline_sample_closed returns four arrays of equal length num_points + 1 in which
the first and last entries of the x, y and velocity arrays are
identical, the arc-length array starts at exactly 0 and is
non-decreasing, and every velocity entry is nonnegative.  With
num_points = 0 the source instead returns arrays of lengths 0, 0, 0, 1
(see the counterexample). -/
theorem C3_output_contract (sq : ℚ → ℚ) (fit : List ℚ → List ℚ → ℚ → ℚ)
    (pts : List Pt) (n : ℕ) (cs : ℚ → Except Unit ℚ) (s_max : ℚ)
    (x y v S : List ℚ) (hne : pts ≠ []) (hn : 1 ≤ n) (hsq : ∀ q, 0 ≤ sq q)
    (hok : spline_sample_closed sq fit pts n cs s_max = .ok (x, y, v, S)) :
    (x.length = n + 1 ∧ y.length = n + 1 ∧ v.length = n + 1 ∧ S.length = n + 1) ∧
    (x.headD 0 = x.getLastD 0 ∧ y.headD 0 = y.getLastD 0 ∧
      v.headD 0 = v.getLastD 0) ∧
    S.headD 0 = 0 ∧ List.Chain' (· ≤ ·) S ∧ ∀ q ∈ v, 0 ≤ q := by
  cases pts with
  | nil => exact absurd rfl hne
  | cons p0 tl =>
    cases tl with
    | nil =>
      simp only [spline_sample_closed, Except.ok.injEq] at hok
      exact degen_contract p0 n cs x y v S hn hok
    | cons p1 rest =>
      simp only [spline_sample_closed] at hok
      by_cases hdeg :
          (chordCumsum sq (ptsForSpline (p0 :: p1 :: rest))).getLastD 0 < epsQ
      · rw [if_pos hdeg, Except.ok.injEq] at hok
        exact degen_contract p0 n cs x y v S hn hok
      · rw [if_neg hdeg] at hok
        simp only [mainSample] at hok
        obtain ⟨v_vals, hvv, hr⟩ := exceptMap_ok hok
        exact assembleSample_spec sq fit _ _ n v_vals x y v S hn hsq hr.symm

/-- Claim C3 (amended), witness: evaluation on a single control point
(1,2) with num_points = 2 and a velocity source constant at 3. -/
theorem C3_witness :
    ([((1 : ℚ), (2 : ℚ))] : List Pt) ≠ [] ∧ (1 : ℕ) ≤ 2 ∧
    (∀ q : ℚ, 0 ≤ maxQ q 0) ∧
    spline_sample_closed (fun q => maxQ q 0) (fun _ _ _ => 0) [((1 : ℚ), (2 : ℚ))] 2
      (fun _ => .ok 3) 1 = .ok ([1, 1, 1], [2, 2, 2], [3, 3, 3], [0, 0, 0]) ∧
    ((([1, 1, 1] : List ℚ).length = 2 + 1 ∧ ([2, 2, 2] : List ℚ).length = 2 + 1 ∧
      ([3, 3, 3] : List ℚ).length = 2 + 1 ∧ ([0, 0, 0] : List ℚ).length = 2 + 1) ∧
      (([1, 1, 1] : List ℚ).headD 0 = ([1, 1, 1] : List ℚ).getLastD 0 ∧
        ([2, 2, 2] : List ℚ).headD 0 = ([2, 2, 2] : List ℚ).getLastD 0 ∧
        ([3, 3, 3] : List ℚ).headD 0 = ([3, 3, 3] : List ℚ).getLastD 0) ∧
      ([0, 0, 0] : List ℚ).headD 0 = 0 ∧
      List.Chain' (· ≤ ·) ([0, 0, 0] : List ℚ) ∧
      ∀ q ∈ ([3, 3, 3] : List ℚ), 0 ≤ q) :=
  ⟨by simp, by omega, fun q => by show 0 ≤ maxQ q 0; rw [maxQ_eq]; exact le_max_right q 0,
    by with_unfolding_all rfl,
    C3_output_contract (fun q => maxQ q 0) (fun _ _ _ => 0) [((1 : ℚ), (2 : ℚ))] 2
      (fun _ => .ok 3) 1 _ _ _ _ (by simp) (by omega)
      (fun q => by show 0 ≤ maxQ q 0; rw [maxQ_eq]; exact le_max_right q 0)
      (by with_unfolding_all rfl)⟩

/-! Claim C2: the failure policy for the velocity source. -/

/-- Claim C2, counterexample: on the non-degenerate path (two distinct
control points), a velocity source that always fails makes
spline_sample_closed propagate the failure instead of substituting
velocity 0. -/
theorem C2_counterexample :
    spline_sample_closed (fun q => maxQ q 0) (fun _ _ _ => 0)
      [((0 : ℚ), (0 : ℚ)), (1, 0)] 3 (fun _ => .error ()) 1 = .error () := by
  with_unfolding_all rfl

/-- Claim C2 (amended): a failure of the velocity source is caught and
replaced by velocity 0 only on the degenerate paths — a single control
point, or a closed loop whose total chord length is below 1e-9 — where
the source is evaluated at 0 and the sampler still returns
successfully with every velocity equal to 0.  On the path with two or
more distinct control points the failure propagates out of the sampler
(see the counterexample). -/
theorem C2_failure_policy (sq : ℚ → ℚ) (fit : List ℚ → List ℚ → ℚ → ℚ)
    (p : Pt) (n : ℕ) (cs : ℚ → Except Unit ℚ) (s_max : ℚ) (e : Unit)
    (p0 p1 : Pt) (rest : List Pt) (hfail : cs 0 = .error e) :
    (∃ x y v S, spline_sample_closed sq fit [p] n cs s_max = .ok (x, y, v, S) ∧
      ∀ q ∈ v, q = 0) ∧
    ((chordCumsum sq (ptsForSpline (p0 :: p1 :: rest))).getLastD 0 < epsQ →
      ∃ x y v S,
        spline_sample_closed sq fit (p0 :: p1 :: rest) n cs s_max =
          .ok (x, y, v, S) ∧
        ∀ q ∈ v, q = 0) := by
  have hval : ∀ (p' : Pt) (q : ℚ), q ∈ (degenSample p' n cs).2.2.1 → q = 0 := by
    intro p' q hq
    obtain ⟨-, -, hv, -, -⟩ := degenSample_spec p' n cs _ _ _ _ rfl
    have := hv q hq
    rw [hfail] at this
    rw [this]
    rfl
  constructor
  · exact ⟨_, _, _, _, rfl, hval p⟩
  · intro hdeg
    have hrun : spline_sample_closed sq fit (p0 :: p1 :: rest) n cs s_max =
        .ok (degenSample p0 n cs) := by
      simp only [spline_sample_closed]
      rw [if_pos hdeg]
    exact ⟨_, _, _, _, hrun, hval p0⟩

/-- Claim C2 (amended), witness: a failing source on a single control
point and on a two-point loop of zero length. -/
theorem C2_witness :
    ((fun _ : ℚ => (Except.error () : Except Unit ℚ)) 0 = .error ()) ∧
    (chordCumsum (fun q => maxQ q 0)
      (ptsForSpline [((1 : ℚ), (1 : ℚ)), (1, 1)])).getLastD 0 < epsQ ∧
    (∃ x y v S,
      spline_sample_closed (fun q => maxQ q 0) (fun _ _ _ => 0) [((1 : ℚ), (2 : ℚ))]
        2 (fun _ => .error ()) 1 = .ok (x, y, v, S) ∧ ∀ q ∈ v, q = 0) ∧
    (∃ x y v S,
      spline_sample_closed (fun q => maxQ q 0) (fun _ _ _ => 0)
        [((1 : ℚ), (1 : ℚ)), (1, 1)] 2 (fun _ => .error ()) 1 =
        .ok (x, y, v, S) ∧ ∀ q ∈ v, q = 0) :=
  ⟨rfl, by with_unfolding_all decide,
    (C2_failure_policy (fun q => maxQ q 0) (fun _ _ _ => 0) ((1 : ℚ), (2 : ℚ)) 2
      (fun _ => .error ()) 1 () ((1 : ℚ), (1 : ℚ)) ((1 : ℚ), (1 : ℚ)) [] rfl).1,
    (C2_failure_policy (fun q => maxQ q 0) (fun _ _ _ => 0) ((1 : ℚ), (2 : ℚ)) 2
      (fun _ => .error ()) 1 () ((1 : ℚ), (1 : ℚ)) ((1 : ℚ), (1 : ℚ)) [] rfl).2
      (by with_unfolding_all decide)⟩

/-! Claim C8: the degenerate outputs of spline_sample_closed. -/

/-- Claim C8: with 0 control points spline_sample_closed returns four
empty arrays; with exactly 1 control point, or with any longer
sequence whose closed-loop chord length is below the 1e-9 epsilon, it
returns successfully with x and y constant at the first point, the
velocity constant at the source's value at 0 clamped nonnegative, and
an all-zero arc-length array. -/
theorem C8_degenerate_outputs (sq : ℚ → ℚ) (fit : List ℚ → List ℚ → ℚ → ℚ)
    (n : ℕ) (cs : ℚ → Except Unit ℚ) (s_max : ℚ) (p p0 p1 : Pt)
    (rest : List Pt) (v0 : ℚ) :
    spline_sample_closed sq fit [] n cs s_max = .ok ([], [], [], []) ∧
    (cs 0 = .ok v0 →
      ∃ x y v S, spline_sample_closed sq fit [p] n cs s_max = .ok (x, y, v, S) ∧
        (∀ q ∈ x, q = p.1) ∧ (∀ q ∈ y, q = p.2) ∧
        (∀ q ∈ v, q = maxQ 0 v0) ∧ ∀ q ∈ S, q = 0) ∧
    ((chordCumsum sq (ptsForSpline (p0 :: p1 :: rest))).getLastD 0 < epsQ →
      cs 0 = .ok v0 →
      ∃ x y v S,
        spline_sample_closed sq fit (p0 :: p1 :: rest) n cs s_max =
          .ok (x, y, v, S) ∧
        (∀ q ∈ x, q = p0.1) ∧ (∀ q ∈ y, q = p0.2) ∧
        (∀ q ∈ v, q = maxQ 0 v0) ∧ ∀ q ∈ S, q = 0) := by
  have hparts : ∀ (p' : Pt), cs 0 = .ok v0 →
      (∀ q ∈ (degenSample p' n cs).1, q = p'.1) ∧
      (∀ q ∈ (degenSample p' n cs).2.1, q = p'.2) ∧
      (∀ q ∈ (degenSample p' n cs).2.2.1, q = maxQ 0 v0) ∧
      ∀ q ∈ (degenSample p' n cs).2.2.2, q = 0 := by
    intro p' hv0
    obtain ⟨hx, hy, hv, hS, -⟩ := degenSample_spec p' n cs _ _ _ _ rfl
    refine ⟨hx, hy, ?_, hS⟩
    intro q hq
    have := hv q hq
    rw [hv0] at this
    exact this
  refine ⟨rfl, ?_, ?_⟩
  · intro hv0
    obtain ⟨hx, hy, hv, hS⟩ := hparts p hv0
    exact ⟨_, _, _, _, rfl, hx, hy, hv, hS⟩
  · intro hdeg hv0
    obtain ⟨hx, hy, hv, hS⟩ := hparts p0 hv0
    have hrun : spline_sample_closed sq fit (p0 :: p1 :: rest) n cs s_max =
        .ok (degenSample p0 n cs) := by
      simp only [spline_sample_closed]
      rw [if_pos hdeg]
    exact ⟨_, _, _, _, hrun, hx, hy, hv, hS⟩

/-- Claim C8, witness: the three degenerate regimes evaluated at a
source constant at 3 (so the clamped constant is maxQ 0 3). -/
theorem C8_witness :
    ((fun _ : ℚ => (Except.ok 3 : Except Unit ℚ)) 0 = .ok 3) ∧
    (chordCumsum (fun q => maxQ q 0)
      (ptsForSpline [((1 : ℚ), (1 : ℚ)), (1, 1)])).getLastD 0 < epsQ ∧
    spline_sample_closed (fun q => maxQ q 0) (fun _ _ _ => 0) ([] : List Pt) 2
      (fun _ => .ok 3) 1 = .ok ([], [], [], []) ∧
    (∃ x y v S,
      spline_sample_closed (fun q => maxQ q 0) (fun _ _ _ => 0) [((1 : ℚ), (2 : ℚ))]
        2 (fun _ => .ok 3) 1 = .ok (x, y, v, S) ∧
      (∀ q ∈ x, q = 1) ∧ (∀ q ∈ y, q = 2) ∧
      (∀ q ∈ v, q = maxQ 0 3) ∧ ∀ q ∈ S, q = 0) ∧
    (∃ x y v S,
      spline_sample_closed (fun q => maxQ q 0) (fun _ _ _ => 0)
        [((1 : ℚ), (1 : ℚ)), (1, 1)] 2 (fun _ => .ok 3) 1 = .ok (x, y, v, S) ∧
      (∀ q ∈ x, q = 1) ∧ (∀ q ∈ y, q = 1) ∧
      (∀ q ∈ v, q = maxQ 0 3) ∧ ∀ q ∈ S, q = 0) :=
  ⟨rfl, by with_unfolding_all decide,
    (C8_degenerate_outputs (fun q => maxQ q 0) (fun _ _ _ => 0) 2 (fun _ => .ok 3) 1
      ((1 : ℚ), (2 : ℚ)) ((1 : ℚ), (1 : ℚ)) ((1 : ℚ), (1 : ℚ)) [] 3).1,
    (C8_degenerate_outputs (fun q => maxQ q 0) (fun _ _ _ => 0) 2 (fun _ => .ok 3) 1
      ((1 : ℚ), (2 : ℚ)) ((1 : ℚ), (1 : ℚ)) ((1 : ℚ), (1 : ℚ)) [] 3).2.1 rfl,
    (C8_degenerate_outputs (fun q => maxQ q 0) (fun _ _ _ => 0) 2 (fun _ => .ok 3) 1
      ((1 : ℚ), (2 : ℚ)) ((1 : ℚ), (1 : ℚ)) ((1 : ℚ), (1 : ℚ)) [] 3).2.2
      (by with_unfolding_all decide) rfl⟩

/-! Claim C9: the sampled geometry does not depend on the velocity
source. -/

/-- Claim C9: two successful runs of spline_sample_closed on the same
control points, sample count, square root and external fit, differing
only in the velocity source and its s_max scaling, return identical
x and y arrays: velocity edits never change the sampled path
geometry. -/
theorem C9_geometry_noninterference (sq : ℚ → ℚ)
    (fit : List ℚ → List ℚ → ℚ → ℚ) (pts : List Pt) (n : ℕ)
    (cs₁ : ℚ → Except Unit ℚ) (s₁ : ℚ) (cs₂ : ℚ → Except Unit ℚ) (s₂ : ℚ)
    (x₁ y₁ v₁ S₁ x₂ y₂ v₂ S₂ : List ℚ)
    (h1 : spline_sample_closed sq fit pts n cs₁ s₁ = .ok (x₁, y₁, v₁, S₁))
    (h2 : spline_sample_closed sq fit pts n cs₂ s₂ = .ok (x₂, y₂, v₂, S₂)) :
    x₁ = x₂ ∧ y₁ = y₂ := by
  cases pts with
  | nil =>
    simp only [spline_sample_closed, Except.ok.injEq, Prod.mk.injEq] at h1 h2
    obtain ⟨hx1, hy1, -, -⟩ := h1
    obtain ⟨hx2, hy2, -, -⟩ := h2
    exact ⟨hx1.symm.trans hx2, hy1.symm.trans hy2⟩
  | cons p0 tl =>
    cases tl with
    | nil =>
      simp only [spline_sample_closed, degenSample, Except.ok.injEq,
        Prod.mk.injEq] at h1 h2
      obtain ⟨hx1, hy1, -, -⟩ := h1
      obtain ⟨hx2, hy2, -, -⟩ := h2
      exact ⟨hx1.symm.trans hx2, hy1.symm.trans hy2⟩
    | cons p1 rest =>
      simp only [spline_sample_closed] at h1 h2
      by_cases hdeg :
          (chordCumsum sq (ptsForSpline (p0 :: p1 :: rest))).getLastD 0 < epsQ
      · rw [if_pos hdeg] at h1 h2
        simp only [degenSample, Except.ok.injEq, Prod.mk.injEq] at h1 h2
        obtain ⟨hx1, hy1, -, -⟩ := h1
        obtain ⟨hx2, hy2, -, -⟩ := h2
        exact ⟨hx1.symm.trans hx2, hy1.symm.trans hy2⟩
      · rw [if_neg hdeg] at h1 h2
        simp only [mainSample] at h1 h2
        obtain ⟨a1, -, hr1⟩ := exceptMap_ok h1
        obtain ⟨a2, -, hr2⟩ := exceptMap_ok h2
        simp only [assembleSample, Prod.mk.injEq] at hr1 hr2
        obtain ⟨hx1, hy1, -, -⟩ := hr1
        obtain ⟨hx2, hy2, -, -⟩ := hr2
        exact ⟨hx1.trans hx2.symm, hy1.trans hy2.symm⟩

/-- Claim C9, witness: the same single control point sampled with a
source constant at 5 and again with a source constant at 10 keeps the
same x and y arrays. -/
theorem C9_witness :
    spline_sample_closed (fun q => maxQ q 0) (fun _ _ _ => 0) [((0 : ℚ), (0 : ℚ))] 1
      (fun _ => .ok 5) 1 = .ok ([0, 0], [0, 0], [5, 5], [0, 0]) ∧
    spline_sample_closed (fun q => maxQ q 0) (fun _ _ _ => 0) [((0 : ℚ), (0 : ℚ))] 1
      (fun _ => .ok 10) 2 = .ok ([0, 0], [0, 0], [10, 10], [0, 0]) ∧
    ([0, 0] : List ℚ) = [0, 0] ∧ ([0, 0] : List ℚ) = [0, 0] :=
  ⟨by with_unfolding_all rfl, by with_unfolding_all rfl,
    (C9_geometry_noninterference (fun q => maxQ q 0) (fun _ _ _ => 0)
      [((0 : ℚ), (0 : ℚ))] 1 (fun _ => .ok 5) 1 (fun _ => .ok 10) 2
      _ _ _ _ _ _ _ _ (by with_unfolding_all rfl) (by with_unfolding_all rfl)).1,
    (C9_geometry_noninterference (fun q => maxQ q 0) (fun _ _ _ => 0)
      [((0 : ℚ), (0 : ℚ))] 1 (fun _ => .ok 5) 1 (fun _ => .ok 10) 2
      _ _ _ _ _ _ _ _ (by with_unfolding_all rfl) (by with_unfolding_all rfl)).2⟩

/-! Helper lemmas about setLastToHead and List.set. -/

theorem setLastToHead_headD (l : List ℚ) (b : ℚ) :
    (setLastToHead l).headD b = l.headD b := by
  cases l with
  | nil => rfl
  | cons x t =>
    cases t with
    | nil => rfl
    | cons c t' => simp [setLastToHead]

theorem setLastToHead_getLastD (l : List ℚ) (b : ℚ) (h : l ≠ []) :
    (setLastToHead l).getLastD b = l.headD b := by
  cases l with
  | nil => exact absurd rfl h
  | cons x t =>
    show ((x :: t).dropLast ++ [x]).getLastD b = x
    exact List.getLastD_concat _ _ _

theorem setLastToHead_mem {l : List ℚ} {q : ℚ} (h : q ∈ setLastToHead l) :
    q ∈ l := by
  cases l with
  | nil => simp [setLastToHead] at h
  | cons x t =>
    simp only [setLastToHead] at h
    rcases List.mem_append.mp h with h' | h'
    · exact List.dropLast_subset _ h'
    · rcases List.mem_singleton.mp h' with rfl
      exact List.mem_cons_self _ _

theorem headD_set_zero (l : List ℚ) (a b : ℚ) (h : l ≠ []) :
    (l.set 0 a).headD b = a := by
  cases l with
  | nil => exact absurd rfl h
  | cons x t => rfl

theorem headD_set_of_ne (l : List ℚ) (i : ℕ) (a b : ℚ) (h : i ≠ 0) :
    (l.set i a).headD b = l.headD b := by
  cases l with
  | nil => rfl
  | cons x t =>
    cases i with
    | zero => exact absurd rfl h
    | succ j => rfl

theorem getLastD_set_len : ∀ (l : List ℚ) (a b : ℚ), l ≠ [] →
    (l.set (l.length - 1) a).getLastD b = a
  | [x], a, b, _ => rfl
  | x :: y :: t, a, b, _ => by
    have hi : (x :: y :: t).length - 1 = ((y :: t).length - 1) + 1 := by
      simp only [List.length_cons]
      omega
    rw [hi]
    show (x :: (y :: t).set ((y :: t).length - 1) a).getLastD b = a
    rw [List.getLastD_cons]
    exact getLastD_set_len (y :: t) a x (by simp)

theorem getLastD_set_last (l : List ℚ) (i : ℕ) (a b : ℚ) (hne : l ≠ [])
    (hi : i = l.length - 1) : (l.set i a).getLastD b = a := by
  subst hi
  exact getLastD_set_len l a b hne

theorem getLastD_set_of_ne : ∀ (l : List ℚ) (i : ℕ) (a b : ℚ),
    i ≠ l.length - 1 → (l.set i a).getLastD b = l.getLastD b
  | [], _, _, _, _ => rfl
  | [x], i, a, b, h => by
    cases i with
    | zero => exact absurd rfl h
    | succ j => rfl
  | x :: y :: t, i, a, b, h => by
    cases i with
    | zero =>
      show (a :: y :: t).getLastD b = (x :: y :: t).getLastD b
      simp [List.getLastD_cons]
    | succ j =>
      show (x :: (y :: t).set j a).getLastD b = (x :: y :: t).getLastD b
      rw [List.getLastD_cons, List.getLastD_cons]
      apply getLastD_set_of_ne
      simp only [List.length_cons] at h ⊢
      omega

theorem mem_set_nonneg {v : List ℚ} (hpos : ∀ q ∈ v, 0 ≤ q) (i : ℕ) {a : ℚ}
    (ha : 0 ≤ a) : ∀ q ∈ v.set i a, 0 ≤ q := by
  intro q hq
  rcases List.mem_or_eq_of_mem_set hq with h | rfl
  · exact hpos q h
  · exact ha

/-! Claim C4: velocity invariants under drag and reparametrization. -/

/-- The drag of mouseMoveEvent written as explicit writes: the dragged
entry becomes max(0, new value), and exactly the opposite periodic
endpoint is additionally overwritten when the dragged index is first
or last. -/
theorem drag_eq (v : List ℚ) (idx : ℕ) (y : ℚ) (hlen : 2 ≤ v.length)
    (hidx : idx < v.length) :
    drag true v idx y =
      if idx = 0 then (v.set 0 (maxQ 0 y)).set (v.length - 1) (maxQ 0 y)
      else if idx = v.length - 1 then
        (v.set (v.length - 1) (maxQ 0 y)).set 0 (maxQ 0 y)
      else v.set idx (maxQ 0 y) := by
  have hne : v ≠ [] := by
    rw [← List.length_pos]
    omega
  simp only [drag, List.length_set]
  rw [if_pos ⟨by trivial, (by omega : 1 < v.length)⟩]
  by_cases h0 : idx = 0
  · subst h0
    rw [if_pos rfl, if_pos rfl]
    congr 1
    exact headD_set_zero v _ 0 hne
  · rw [if_neg h0, if_neg h0]
    by_cases hl : idx = v.length - 1
    · rw [if_pos hl, if_pos hl]
      subst hl
      congr 1
      exact getLastD_set_len v _ 0 hne
    · rw [if_neg hl, if_neg hl]

theorem reparamRaw_length (new_s cur_s cur_v : List ℚ) (s_max : ℚ)
    (cs0 : ℚ → ℚ) :
    (reparamRaw new_s cur_s cur_v s_max cs0).length = new_s.length := by
  simp [reparamRaw]

/-- Claim C4: for a periodic velocity array of length at least 2
satisfying the data-model invariant (v[last] = v[first], all entries
nonnegative), a drag of any in-range index sets v[index] to
max(0, new_v), mirrors that value to the opposite periodic endpoint
exactly when the index is first or last and changes no other entry,
and the result again satisfies v[last] = v[first] with all entries
nonnegative; and a reparametrization onto any new arc-length grid of
length at least 2 also ends with v[last] = v[first] and all entries
nonnegative. -/
theorem C4_velocity_invariants (v : List ℚ) (idx : ℕ) (y : ℚ)
    (new_s cur_s cur_v : List ℚ) (s_max : ℚ) (cs0 : ℚ → ℚ)
    (hlen : 2 ≤ v.length) (hidx : idx < v.length)
    (hper : v.getLastD 0 = v.headD 0) (hpos : ∀ q ∈ v, 0 ≤ q)
    (hns : 2 ≤ new_s.length) :
    (drag true v idx y =
      if idx = 0 then (v.set 0 (maxQ 0 y)).set (v.length - 1) (maxQ 0 y)
      else if idx = v.length - 1 then
        (v.set (v.length - 1) (maxQ 0 y)).set 0 (maxQ 0 y)
      else v.set idx (maxQ 0 y)) ∧
    (drag true v idx y).getLastD 0 = (drag true v idx y).headD 0 ∧
    (∀ q ∈ drag true v idx y, 0 ≤ q) ∧
    (reparametrize_to new_s cur_s cur_v s_max cs0).getLastD 0 =
      (reparametrize_to new_s cur_s cur_v s_max cs0).headD 0 ∧
    ∀ q ∈ reparametrize_to new_s cur_s cur_v s_max cs0, 0 ≤ q := by
  have hne : v ≠ [] := by
    rw [← List.length_pos]
    omega
  have hform := drag_eq v idx y hlen hidx
  have hsetne : ∀ (i : ℕ) (a : ℚ), v.set i a ≠ [] := by
    intro i a
    rw [← List.length_pos, List.length_set]
    omega
  have hw : reparametrize_to new_s cur_s cur_v s_max cs0 =
      setLastToHead ((reparamRaw new_s cur_s cur_v s_max cs0).map
        fun q => maxQ 0 q) := by
    simp only [reparametrize_to, finalizeVel]
    rw [if_pos (by omega : 1 < new_s.length)]
  have hcne : ((reparamRaw new_s cur_s cur_v s_max cs0).map
      fun q => maxQ 0 q) ≠ [] := by
    rw [← List.length_pos, List.length_map, reparamRaw_length]
    omega
  refine ⟨hform, ?_, ?_, ?_, ?_⟩
  · rw [hform]
    by_cases h0 : idx = 0
    · rw [if_pos h0]
      rw [getLastD_set_last _ _ _ _ (hsetne 0 (maxQ 0 y))
          (by rw [List.length_set]),
        headD_set_of_ne _ _ _ _ (by omega), headD_set_zero v _ 0 hne]
    · rw [if_neg h0]
      by_cases hl : idx = v.length - 1
      · rw [if_pos hl]
        rw [getLastD_set_of_ne _ _ _ _ (by rw [List.length_set]; omega),
          headD_set_zero _ _ 0 (hsetne _ (maxQ 0 y)),
          getLastD_set_len v _ 0 hne]
      · rw [if_neg hl]
        rw [getLastD_set_of_ne _ _ _ _ hl, headD_set_of_ne _ _ _ _ h0]
        exact hper
  · rw [hform]
    by_cases h0 : idx = 0
    · rw [if_pos h0]
      exact mem_set_nonneg (mem_set_nonneg hpos 0 (maxQ_nonneg y)) _
        (maxQ_nonneg y)
    · rw [if_neg h0]
      by_cases hl : idx = v.length - 1
      · rw [if_pos hl]
        exact mem_set_nonneg (mem_set_nonneg hpos _ (maxQ_nonneg y)) 0
          (maxQ_nonneg y)
      · rw [if_neg hl]
        exact mem_set_nonneg hpos idx (maxQ_nonneg y)
  · rw [hw, setLastToHead_getLastD _ _ hcne, setLastToHead_headD]
  · intro q hq
    rw [hw] at hq
    exact mem_map_maxQ (setLastToHead_mem hq)

/-- Claim C4, witness: an interior drag on [3, 4, 3] with a negative
target value, and a reparametrization of a two-sample profile onto a
three-sample grid. -/
theorem C4_witness :
    2 ≤ ([3, 4, 3] : List ℚ).length ∧ 1 < ([3, 4, 3] : List ℚ).length ∧
    ([3, 4, 3] : List ℚ).getLastD 0 = ([3, 4, 3] : List ℚ).headD 0 ∧
    (∀ q ∈ ([3, 4, 3] : List ℚ), 0 ≤ q) ∧ 2 ≤ ([0, 1, 2] : List ℚ).length ∧
    ((drag true [3, 4, 3] 1 (-2) =
      if 1 = 0 then
        (([3, 4, 3] : List ℚ).set 0 (maxQ 0 (-2))).set
          (([3, 4, 3] : List ℚ).length - 1) (maxQ 0 (-2))
      else if 1 = ([3, 4, 3] : List ℚ).length - 1 then
        (([3, 4, 3] : List ℚ).set (([3, 4, 3] : List ℚ).length - 1)
          (maxQ 0 (-2))).set 0 (maxQ 0 (-2))
      else ([3, 4, 3] : List ℚ).set 1 (maxQ 0 (-2))) ∧
    (drag true [3, 4, 3] 1 (-2)).getLastD 0 =
      (drag true [3, 4, 3] 1 (-2)).headD 0 ∧
    (∀ q ∈ drag true [3, 4, 3] 1 (-2), 0 ≤ q) ∧
    (reparametrize_to [0, 1, 2] [0, 1] [5, 6] 2 (fun _ => 0)).getLastD 0 =
      (reparametrize_to [0, 1, 2] [0, 1] [5, 6] 2 (fun _ => 0)).headD 0 ∧
    ∀ q ∈ reparametrize_to [0, 1, 2] [0, 1] [5, 6] 2 (fun _ => 0), 0 ≤ q) :=
  ⟨by decide, by simp, by with_unfolding_all decide,
    by with_unfolding_all decide, by decide,
    C4_velocity_invariants [3, 4, 3] 1 (-2) [0, 1, 2] [0, 1] [5, 6] 2
      (fun _ => 0) (by decide) (by simp) (by with_unfolding_all decide)
      (by with_unfolding_all decide) (by decide)⟩

/-! Helper lemmas about np.unique on sorted input. -/

theorem sortQ_of_sorted : ∀ l : List ℚ, List.Chain' (· ≤ ·) l → sortQ l = l
  | [], _ => rfl
  | x :: xs, h => by
    have h2 : List.Chain' (· ≤ ·) xs := (List.chain'_cons'.mp h).2
    simp only [sortQ]
    rw [sortQ_of_sorted xs h2]
    cases xs with
    | nil => rfl
    | cons y ys =>
      have hxy : x ≤ y := (List.chain'_cons.mp h).1
      simp [insSorted, if_pos hxy]

theorem dedupAdj_ne_nil : ∀ l : List ℚ, l ≠ [] → dedupAdj l ≠ []
  | [], h => absurd rfl h
  | [x], _ => by simp [dedupAdj]
  | x :: y :: t, _ => by
    simp only [dedupAdj]
    split
    · exact dedupAdj_ne_nil (y :: t) (by simp)
    · simp

theorem dedupAdj_headD : ∀ (l : List ℚ) (a : ℚ), l ≠ [] →
    (dedupAdj l).headD a = l.headD a
  | [], _, h => absurd rfl h
  | [x], _, _ => rfl
  | x :: y :: t, a, _ => by
    simp only [dedupAdj]
    split
    · rename_i hxy
      subst hxy
      rw [dedupAdj_headD (x :: t) a (by simp)]
      rfl
    · rfl

theorem dedupAdj_getLastD : ∀ (l : List ℚ) (a : ℚ), l ≠ [] →
    (dedupAdj l).getLastD a = l.getLastD a
  | [], _, h => absurd rfl h
  | [x], _, _ => rfl
  | x :: y :: t, a, _ => by
    simp only [dedupAdj]
    split
    · rename_i hxy
      subst hxy
      rw [dedupAdj_getLastD (x :: t) a (by simp)]
      simp [List.getLastD_cons]
    · rw [List.getLastD_cons, List.getLastD_cons]
      exact dedupAdj_getLastD (y :: t) x (by simp)

theorem dedupAdj_length_le : ∀ l : List ℚ, (dedupAdj l).length ≤ l.length
  | [] => le_refl _
  | [_] => le_refl _
  | x :: y :: t => by
    simp only [dedupAdj]
    split
    · have := dedupAdj_length_le (y :: t)
      simp only [List.length_cons] at this ⊢
      omega
    · have := dedupAdj_length_le (y :: t)
      simp only [List.length_cons] at this ⊢
      omega

theorem headD_map_ne (f : ℚ → ℚ) (l : List ℚ) (b c : ℚ) (h : l ≠ []) :
    (l.map f).headD b = f (l.headD c) := by
  cases l with
  | nil => exact absurd rfl h
  | cons x t => rfl

theorem firstIdxOf_headD_eq_zero (l : List ℚ) (h : l ≠ []) :
    firstIdxOf (l.headD 0) l = 0 := by
  cases l with
  | nil => exact absurd rfl h
  | cons x t => simp [firstIdxOf]

theorem getD_zero_eq_headD (l : List ℚ) : l.getD 0 0 = l.headD 0 := by
  cases l <;> rfl

/-! Claim C5: the reparametrization interpolation scheme. -/

/-- Claim C5, counterexample: two distinct old samples 0 and 1e-7 (a
loop shorter than the source's 1e-6 guard) make the source fall back
to a constant profile, while the interpolation scheme the claim
describes produces a non-constant profile: [5, 5, 5] versus
[5, 6, 5]. -/
theorem C5_counterexample :
    reparametrize_to [0, 1, 2] [0, 1 / 10000000] [5, 7] 2 (fun _ => 0) =
      [5, 5, 5] ∧
    finalizeVel [0, 1, 2] (reparamSpec [0, 1, 2] [0, 1 / 10000000] [5, 7] 2) =
      [5, 6, 5] ∧
    2 ≤ (uniqueSorted [0, 1 / 10000000] : List ℚ).length ∧
    reparametrize_to [0, 1, 2] [0, 1 / 10000000] [5, 7] 2 (fun _ => 0) ≠
      finalizeVel [0, 1, 2] (reparamSpec [0, 1, 2] [0, 1 / 10000000] [5, 7] 2) := by
  have h1 : reparametrize_to [0, 1, 2] [0, 1 / 10000000] [5, 7] 2 (fun _ => 0) =
      [5, 5, 5] := by with_unfolding_all rfl
  have h2 : finalizeVel [0, 1, 2]
      (reparamSpec [0, 1, 2] [0, 1 / 10000000] [5, 7] 2) = [5, 6, 5] := by
    with_unfolding_all rfl
  have h3 : uniqueSorted [0, 1 / 10000000] = [0, 1 / 10000000] := by
    with_unfolding_all rfl
  refine ⟨h1, h2, by rw [h3]; simp, ?_⟩
  rw [h1, h2]
  decide

/-- Claim C5 (amended): for a nondecreasing old arc-length grid with at
least 2 distinct samples, provided the last old sample exceeds the
source's 1e-6 guard and the new total length s_max exceeds 1e-6, the
reparametrized profile is exactly the claim's scheme: piecewise-linear
interpolation over the deduplicated samples extended by one prepended
wrap point mirroring the gap between the last two samples (unit gap
below 3 distinct samples) and one appended wrap point mirroring the
first gap, with the original first velocity at both added endpoints,
queried at (new_s / new_total_length) * old_total_length — followed by
the final clamp and periodicity write. -/
theorem C5_reparametrization (new_s cur_s cur_v : List ℚ) (s_max : ℚ)
    (cs0 : ℚ → ℚ) (hsorted : List.Chain' (· ≤ ·) cur_s)
    (hdistinct : 2 ≤ (uniqueSorted cur_s).length)
    (hlast : 1 / 1000000 < cur_s.getLastD 0)
    (hsmax : 1 / 1000000 < s_max) :
    reparametrize_to new_s cur_s cur_v s_max cs0 =
      finalizeVel new_s (reparamSpec new_s cur_s cur_v s_max) := by
  have hne : cur_s ≠ [] := by
    intro h
    rw [h] at hdistinct
    simp [uniqueSorted, sortQ, dedupAdj] at hdistinct
  have hu_eq : uniqueSorted cur_s = dedupAdj cur_s := by
    unfold uniqueSorted
    rw [sortQ_of_sorted _ hsorted]
  have hu_ne : uniqueSorted cur_s ≠ [] := by
    rw [hu_eq]
    exact dedupAdj_ne_nil _ hne
  have hu_last : (uniqueSorted cur_s).getLastD 0 = cur_s.getLastD 0 := by
    rw [hu_eq]
    exact dedupAdj_getLastD _ _ hne
  have hu_head : (uniqueSorted cur_s).headD 0 = cur_s.headD 0 := by
    rw [hu_eq]
    exact dedupAdj_headD _ _ hne
  have hu_len_le : (uniqueSorted cur_s).length ≤ cur_s.length := by
    rw [hu_eq]
    exact dedupAdj_length_le _
  have hlen1 : 1 < cur_s.length := by omega
  have hpos0 : 0 < cur_s.getLastD 0 := lt_trans (by norm_num) hlast
  have huv_head : (uniqueV cur_s cur_v).headD 0 = cur_v.headD 0 := by
    unfold uniqueV
    rw [headD_map_ne _ _ 0 0 hu_ne, hu_head, firstIdxOf_headD_eq_zero _ hne,
      getD_zero_eq_headD]
  unfold reparametrize_to
  apply congrArg
  simp only [reparamRaw, reparamSpec]
  apply List.map_congr_left
  intro s _
  simp only [reparamFun]
  rw [if_pos ⟨hlen1, hpos0⟩, if_pos (by omega : 1 < (uniqueSorted cur_s).length),
    if_pos hlast, if_pos (by omega : 1 < (uniqueSorted cur_s).length),
    if_pos hsmax, if_pos (by omega : 0 < cur_s.length), hu_last, huv_head]

/-- Claim C5 (amended), witness: the sorted grid [0, 1, 3] with three
distinct samples reparametrized onto [0, 2, 4] with new total length
4. -/
theorem C5_witness :
    List.Chain' (· ≤ ·) ([0, 1, 3] : List ℚ) ∧
    2 ≤ (uniqueSorted [0, 1, 3] : List ℚ).length ∧
    (1 / 1000000 : ℚ) < ([0, 1, 3] : List ℚ).getLastD 0 ∧
    (1 / 1000000 : ℚ) < (4 : ℚ) ∧
    reparametrize_to [0, 2, 4] [0, 1, 3] [5, 6, 7] 4 (fun _ => 0) =
      finalizeVel [0, 2, 4] (reparamSpec [0, 2, 4] [0, 1, 3] [5, 6, 7] 4) := by
  have hch : List.Chain' (· ≤ ·) ([0, 1, 3] : List ℚ) := by
    norm_num [List.chain'_cons]
  have hu : uniqueSorted [0, 1, 3] = [0, 1, 3] := by with_unfolding_all rfl
  refine ⟨hch, by rw [hu]; simp, by norm_num, by norm_num,
    C5_reparametrization [0, 2, 4] [0, 1, 3] [5, 6, 7] 4 (fun _ => 0) hch
      (by rw [hu]; simp) (by norm_num) (by norm_num)⟩

/-! Claim C6: the curvature denominator guard of save_csv. -/

theorem mem_zipWith_cube_nonneg {sq : ℚ → ℚ} (hsq : ∀ q, 0 ≤ sq q) :
    ∀ (a b : List ℚ), ∀ z ∈ List.zipWith
      (fun a b => sq ((a * a + b * b) * (a * a + b * b) * (a * a + b * b))) a b,
      0 ≤ z
  | [], _, z, hz => by simp at hz
  | _ :: _, [], z, hz => by simp at hz
  | x :: xs, y :: ys, z, hz => by
    simp only [List.zipWith_cons_cons] at hz
    rcases List.mem_cons.mp hz with rfl | hz'
    · exact hsq _
    · exact mem_zipWith_cube_nonneg hsq xs ys z hz'

theorem getD_map_lt (f : ℚ → ℚ) (l : List ℚ) (i : ℕ) (h : i < l.length) :
    (l.map f).getD i 0 = f (l.getD i 0) := by
  rw [List.getD_eq_getElem _ _ (by simpa using h), List.getD_eq_getElem _ _ h]
  simp

/-- Claim C6: in the exported-trajectory curvature computation, with
the machine constant modelled as an arbitrary positive eps, every
denominator entry that is exactly zero is replaced by eps before
dividing and every nonzero entry is kept; after the guard every
denominator entry is strictly positive, and in particular the
denominator used at every output row of the curvature column is
nonzero, so no curvature value is produced by a division by zero. -/
theorem C6_curvature_guard (sq : ℚ → ℚ) (eps : ℚ) (x y : List ℚ)
    (heps : 0 < eps) (hsq : ∀ q, 0 ≤ sq q) :
    (∀ i < (curvDenom sq eps x y).length, 0 < (curvDenom sq eps x y).getD i 0) ∧
    (∀ i < (curvDenomRaw sq x y).length,
      ((curvDenomRaw sq x y).getD i 0 = 0 →
        (curvDenom sq eps x y).getD i 0 = eps) ∧
      ((curvDenomRaw sq x y).getD i 0 ≠ 0 →
        (curvDenom sq eps x y).getD i 0 = (curvDenomRaw sq x y).getD i 0)) ∧
    ∀ i < (curvKappa sq eps x y).length,
      (curvDenom sq eps x y).getD (i + 2) 0 ≠ 0 := by
  have hraw_nonneg : ∀ i < (curvDenomRaw sq x y).length,
      0 ≤ (curvDenomRaw sq x y).getD i 0 := by
    intro i hi
    rw [List.getD_eq_getElem _ _ hi]
    exact mem_zipWith_cube_nonneg hsq _ _ _ (List.getElem_mem _)
  have hlen_eq : (curvDenom sq eps x y).length = (curvDenomRaw sq x y).length := by
    simp [curvDenom]
  have hentry : ∀ i < (curvDenomRaw sq x y).length,
      (curvDenom sq eps x y).getD i 0 =
        (if (curvDenomRaw sq x y).getD i 0 = 0 then eps
         else (curvDenomRaw sq x y).getD i 0) := by
    intro i hi
    exact getD_map_lt _ _ i hi
  have hpos : ∀ i < (curvDenom sq eps x y).length,
      0 < (curvDenom sq eps x y).getD i 0 := by
    intro i hi
    rw [hlen_eq] at hi
    rw [hentry i hi]
    by_cases h0 : (curvDenomRaw sq x y).getD i 0 = 0
    · rw [if_pos h0]
      exact heps
    · rw [if_neg h0]
      exact lt_of_le_of_ne (hraw_nonneg i hi) (Ne.symm h0)
  refine ⟨hpos, ?_, ?_⟩
  · intro i hi
    constructor
    · intro h0
      rw [hentry i hi, if_pos h0]
    · intro h0
      rw [hentry i hi, if_neg h0]
  · intro i hi
    simp only [curvKappa, List.length_dropLast, List.length_drop,
      List.length_zipWith, curvDenom, curvDenomRaw, List.length_map] at hi
    have hgoal : i + 2 < (curvDenom sq eps x y).length := by
      simp only [curvDenom, curvDenomRaw, List.length_map, List.length_zipWith]
      omega
    exact (hpos (i + 2) hgoal).ne'

/-- Claim C6, witness: a fully degenerate constant sampled loop, where
every raw denominator is 0 and every guarded denominator becomes eps
(taken as 1). -/
theorem C6_witness :
    (0 : ℚ) < 1 ∧
    curvDenom (fun q => maxQ q 0) 1 (List.replicate 7 0) (List.replicate 7 0) =
      List.replicate 11 1 ∧
    (∀ i < (curvDenom (fun q => maxQ q 0) 1 (List.replicate 7 0)
        (List.replicate 7 0)).length,
      0 < (curvDenom (fun q => maxQ q 0) 1 (List.replicate 7 0)
        (List.replicate 7 0)).getD i 0) ∧
    ∀ i < (curvKappa (fun q => maxQ q 0) 1 (List.replicate 7 0)
        (List.replicate 7 0)).length,
      (curvDenom (fun q => maxQ q 0) 1 (List.replicate 7 0)
        (List.replicate 7 0)).getD (i + 2) 0 ≠ 0 :=
  ⟨by norm_num, by with_unfolding_all rfl,
    (C6_curvature_guard (fun q => maxQ q 0) 1 (List.replicate 7 0)
      (List.replicate 7 0) (by norm_num)
      (fun q => by show 0 ≤ maxQ q 0; rw [maxQ_eq]; exact le_max_right q 0)).1,
    (C6_curvature_guard (fun q => maxQ q 0) 1 (List.replicate 7 0)
      (List.replicate 7 0) (by norm_num)
      (fun q => by show 0 ≤ maxQ q 0; rw [maxQ_eq]; exact le_max_right q 0)).2.2⟩

/-- Claim C10, witness: a one-object heap holding a two-point list,
with the new point (2,2). -/
theorem C10_witness :
    0 < ([[((0 : ℚ), (0 : ℚ)), (1, 0)]] : Store).length ∧
    ((insert_nearestProg [[((0 : ℚ), (0 : ℚ)), (1, 0)]] 0 (2, 2)).1.getD 0 [] =
      ([[((0 : ℚ), (0 : ℚ)), (1, 0)]] : Store).getD 0 [] ∧
    (insert_nearestProg [[((0 : ℚ), (0 : ℚ)), (1, 0)]] 0 (2, 2)).2 =
      ([[((0 : ℚ), (0 : ℚ)), (1, 0)]] : Store).length ∧
    (insert_nearestProg [[((0 : ℚ), (0 : ℚ)), (1, 0)]] 0 (2, 2)).1.getD
        (insert_nearestProg [[((0 : ℚ), (0 : ℚ)), (1, 0)]] 0 (2, 2)).2 [] =
      insert_nearest (([[((0 : ℚ), (0 : ℚ)), (1, 0)]] : Store).getD 0 []) (2, 2)) :=
  ⟨by decide, C10_no_mutation [[((0 : ℚ), (0 : ℚ)), (1, 0)]] 0 (2, 2) (by decide)⟩

end RaceLine
